import Mathlib

/-!
Verification of the luahint scope/value resolution engine against its
specification.

The Rust sources embedded here are `src/scope.rs` (scope tree, arenas,
resolver), `src/visitor.rs` (the AST visitor that builds scopes and emits
inlay hints) and `src/lsp.rs` (the `inlay_hint` request handler).

Modelling conventions:
* slotmap arenas (`SlotMap<K, V>`) are modelled as append-only lists whose
  keys are list indices; `insert` appends and returns the fresh index.
* `LinkedHashMap<String, VarId>` is modelled as an association list whose
  `insert` replaces the value of an existing key in place (the linked
  hash map keeps the original position) and appends fresh keys.
* The builder's scope stack (a Rust `Vec` pushed/popped at the back) is
  modelled as a list whose HEAD is the top (innermost) element; the Rust
  `stack.first()` is therefore `List.getLast?` here.
* The full_moon syntax tree is an external collaborator; it is modelled
  with exactly the constructors the pass inspects, plus `other`
  constructors for the node shapes the pass treats as opaque.
* The full_moon `Visitor` traversal is modelled by linearizing a tree
  into the sequence of visit events full_moon delivers (entry callbacks
  before children, `_end` callbacks after) and folding the event handlers
  (`step`) over that sequence.
* Functions that recurse without a structural bound in Rust
  (`resolve_reference`, the scope-chain walk of `find_var`) are embedded
  with an explicit fuel parameter; `none` at the outer layer means the
  fuel ran out, i.e. the Rust recursion has not yet returned.
* The single `unwrap` of the pass (`get_current_scope_id().unwrap()` in
  `visit_function_call`) is modelled by returning `none` (a panic) from
  the handler when the stack is empty.
* `usize as u32` casts are modelled as `% 2 ^ 32`.
-/

namespace Luahint

/-- A source position as reported by the full_moon tokenizer
(`full_moon::tokenizer::Position`); only `line` and `character` are read
by the pass.  `Position::default()` has both fields zero. -/
structure Pos where
  line : Nat
  character : Nat
  deriving DecidableEq, Repr

instance : Inhabited Pos := ⟨⟨0, 0⟩⟩

/-- A declared parameter of a function: the display string of its token and
its start position (`start_position()` returns an `Option`). -/
structure Param where
  name : String
  pos : Option Pos
  deriving DecidableEq, Repr

/-- The fields of `lsp_types::InlayHint` that the pass actually fills with
request-dependent data: position (`line`/`character` are `u32`), string
label, and the constant kind `InlayHintKind::PARAMETER` (= 2).  The
remaining fields are always `None` in the source. -/
structure InlayHint where
  line : Nat
  character : Nat
  label : String
  kind : Nat
  deriving DecidableEq, Repr

/-- A ghost record of one scope-stack operation (a call of `Vec::push` or
`Vec::pop` on the builder's stack), used to state the push/pop balance
invariant. -/
inductive StackOp where
  | push
  | pop
  deriving DecidableEq, Repr

/- The slotmap key types of the source (`ScopeId`, `VarId`, `ValueId`,
from `new_key_type!`) are all modelled as plain `Nat` list indices. -/

/-- `Var` from `src/scope.rs`: a binding either owns a value in the same
scope (`Local`) or aliases another scope's binding (`Reference`). -/
inductive Var where
  | Local (value : Nat)
  | Reference (scope : Nat) (var : Nat)
  deriving DecidableEq, Repr

/-- An assignment target (`full_moon::ast::Var`): a bare name, or any
other shape (dotted/indexed targets), which the pass skips. -/
inductive LuaVar where
  | name (n : String)
  | other
  deriving DecidableEq, Repr

mutual

/-- `full_moon::ast::Expression`: the pass inspects `Value` and
`Parentheses`; every other expression shape is opaque to it. -/
inductive LuaExpression where
  | value (v : LuaValue)
  | parentheses (e : LuaExpression)
  | other

/-- `full_moon::ast::Value`: the pass inspects `Function`,
`ParenthesesExpression`, `Var` and (for traversal only) `FunctionCall`;
every other value shape is opaque to it. -/
inductive LuaValue where
  | function (body : FunctionBody)
  | parenthesesExpression (e : LuaExpression)
  | var (v : LuaVar)
  | functionCall (c : FunctionCall)
  | other

/-- A function body: declared parameter list and block. -/
inductive FunctionBody where
  | mk (parameters : List Param) (block : Block)

/-- A lexical block: a list of statements. -/
inductive Block where
  | mk (stmts : List Stmt)

/-- The statements whose visit callbacks the pass implements, plus `do`
blocks standing for any statement that only nests a block. -/
inductive Stmt where
  | localAssignment (names : List String) (exprs : List LuaExpression)
  | assignment (vars : List LuaVar) (exprs : List LuaExpression)
  | localFunction (name : String) (body : FunctionBody)
  | functionDeclaration (name : String) (body : FunctionBody)
  | functionCall (c : FunctionCall)
  | doStmt (b : Block)

/-- `full_moon::ast::FunctionCall`: a call head and a list of suffixes. -/
inductive FunctionCall where
  | mk (pfx : Pfx) (suffixes : List Suffix)

/-- The call head (`full_moon::ast::Prefix`): a bare name, a parenthesized
expression, or any other shape. -/
inductive Pfx where
  | name (n : String)
  | expression (e : LuaExpression)
  | other

/-- A call suffix (`full_moon::ast::Suffix`): a call or an index. -/
inductive Suffix where
  | call (c : CallSfx)
  | index

/-- `full_moon::ast::Call`: an anonymous call `f(...)` or a method call
`obj:m(...)`. -/
inductive CallSfx where
  | anonymousCall (args : FunctionArgs)
  | methodCall (name : String) (args : FunctionArgs)

/-- `full_moon::ast::FunctionArgs`: parenthesized argument list, a bare
string argument, or a bare table constructor argument. -/
inductive FunctionArgs where
  | parentheses (args : List PExpr)
  | stringArg (s : String)
  | tableConstructor

/-- An argument expression together with its `start_position()`. -/
inductive PExpr where
  | mk (expr : LuaExpression) (start : Option Pos)

end

/-- The parameter list of a function body. -/
def FunctionBody.parameters : FunctionBody → List Param
  | .mk ps _ => ps

/-- The block of a function body. -/
def FunctionBody.block : FunctionBody → Block
  | .mk _ b => b

/-- The call head of a function call. -/
def FunctionCall.pfx : FunctionCall → Pfx
  | .mk p _ => p

/-- The suffixes of a function call. -/
def FunctionCall.suffixes : FunctionCall → List Suffix
  | .mk _ s => s

/-- The start position of an argument expression. -/
def PExpr.start : PExpr → Option Pos
  | .mk _ p => p

/-- Rust's `str::trim` (drop whitespace from both ends), written with
structurally recursive list operations so that it evaluates inside the
kernel. -/
def strTrim (s : String) : String :=
  ⟨((s.data.dropWhile Char.isWhitespace).reverse.dropWhile Char.isWhitespace).reverse⟩

/-- Lookup in the `var_names` table (`LinkedHashMap::get`). -/
def lookupName : List (String × Nat) → String → Option Nat
  | [], _ => none
  | p :: rest, k => if p.1 = k then some p.2 else lookupName rest k

/-- Insert into the `var_names` table (`LinkedHashMap::insert`): an
existing key's value is replaced in place, a fresh key is appended. -/
def insertName : List (String × Nat) → String → Nat → List (String × Nat)
  | [], k, v => [(k, v)]
  | p :: rest, k, v => if p.1 = k then (k, v) :: rest else p :: insertName rest k v

/-- `Scope` from `src/scope.rs`. -/
structure Scope where
  value_arena : List LuaValue
  var_arena : List Var
  var_names : List (String × Nat)
  parent : Option Nat
  name : Option String

/-- `Scope::new`. -/
def Scope.new (parent : Option Nat) : Scope :=
  { value_arena := [], var_arena := [], var_names := [], parent := parent, name := none }

/-- `Scope::new_named`. -/
def Scope.new_named (parent : Option Nat) (name : String) : Scope :=
  { value_arena := [], var_arena := [], var_names := [], parent := parent, name := some name }

/-- `Scope::alloc_value`: insert into the value arena, returning the fresh id. -/
def Scope.alloc_value (s : Scope) (value : LuaValue) : Scope × Nat :=
  ({ s with value_arena := s.value_arena ++ [value] }, s.value_arena.length)

/-- `Scope::alloc_var`: insert the var into the arena and bind the name to
the fresh id in the name table. -/
def Scope.alloc_var (s : Scope) (name : String) (var : Var) : Scope × Nat :=
  let id := s.var_arena.length
  ({ s with
      var_arena := s.var_arena ++ [var],
      var_names := insertName s.var_names name id }, id)

/-- `Scope::alloc_local`: allocate the value, then bind the name to a
`Local` var owning it. -/
def Scope.alloc_local (s : Scope) (name : String) (value : LuaValue) : Scope × Nat :=
  let p := s.alloc_value value
  p.1.alloc_var name (Var.Local p.2)

/-- `ScopeManager` from `src/scope.rs`.  The `ast` field (kept in Rust only
to own the tree for the pass's lifetime) carries no analysis state and is
omitted; `node_refs` keys (raw node addresses) are modelled as the fresh
identifiers handed to `open_scope`. -/
structure ScopeManager where
  scopes : List Scope
  stack : List Nat
  node_refs : List (Nat × Nat)
  hints : List InlayHint
  name_stack : List String

/-- The manager as `ScopeManager::new` constructs it before the traversal:
one root scope named "global", the stack holding only that scope. -/
def initManager : ScopeManager :=
  { scopes := [Scope.new_named none "global"],
    stack := [0],
    node_refs := [],
    hints := [],
    name_stack := [] }

/-- `ScopeManager::get_scope`. -/
def ScopeManager.get_scope (m : ScopeManager) (id : Nat) : Option Scope :=
  m.scopes[id]?

/-- `ScopeManager::get_value`. -/
def ScopeManager.get_value (m : ScopeManager) (scope : Nat) (value : Nat) :
    Option LuaValue :=
  (m.get_scope scope).bind fun s => s.value_arena[value]?

/-- Store an updated scope back into the scope arena (the effect of going
through `get_mut`). -/
def ScopeManager.setScope (m : ScopeManager) (id : Nat) (s : Scope) : ScopeManager :=
  { m with scopes := m.scopes.set id s }

/-- `ScopeManager::get_current_scope_id` (`stack.last()` in Rust; the head
here since the list head is the top of the stack). -/
def ScopeManager.get_current_scope_id (m : ScopeManager) : Option Nat :=
  m.stack.head?

/-- `ScopeManager::get_current_scope`. -/
def ScopeManager.get_current_scope (m : ScopeManager) : Option Scope :=
  m.stack.head?.bind fun id => m.scopes[id]?

/-- `ScopeManager::name_next_scope`. -/
def ScopeManager.name_next_scope (m : ScopeManager) (name : String) : ScopeManager :=
  { m with name_stack := name :: m.name_stack }

/-- `ScopeManager::open_scope`: create a scope whose parent is the current
top of the stack, consuming a pending name if one is present, record it in
`node_refs` under the node's identity (a fresh number here: exactly one
scope is inserted per call, so `scopes.length` is distinct per call), and
push it.  Returns the updated manager and the new scope's id. -/
def ScopeManager.open_scope (m : ScopeManager) : ScopeManager × Nat :=
  let id := m.scopes.length
  let addr := m.scopes.length
  match m.name_stack with
  | name :: rest =>
      ({ m with
          scopes := m.scopes ++ [Scope.new_named m.stack.head? name],
          name_stack := rest,
          node_refs := m.node_refs ++ [(addr, id)],
          stack := id :: m.stack }, id)
  | [] =>
      ({ m with
          scopes := m.scopes ++ [Scope.new m.stack.head?],
          node_refs := m.node_refs ++ [(addr, id)],
          stack := id :: m.stack }, id)

/-- `ScopeManager::close_scope` (`Vec::pop`: a no-op on an empty stack). -/
def ScopeManager.close_scope (m : ScopeManager) : ScopeManager :=
  { m with stack := m.stack.tail }

/-- The scope-chain walk of `ScopeManager::find_var`, with fuel.  The Rust
loop follows `parent` links from the scope `id`; `original` records
whether we are still in the scope the walk started from.  The outer
`none` means the fuel ran out (the Rust loop would still be running);
`some r` means the Rust function returned `r`. -/
def find_var_fuel (m : ScopeManager) (name : String) :
    Nat → Nat → Bool → Option (Option Var)
  | 0, _, _ => none
  | fuel + 1, id, original =>
    match m.scopes[id]? with
    | none => some none
    | some scope =>
      match lookupName scope.var_names name with
      | some vid =>
          if original then some scope.var_arena[vid]?
          else some (some (Var.Reference id vid))
      | none =>
        match scope.parent with
        | some parent => find_var_fuel m name fuel parent false
        | none => some none

/-- `ScopeManager::find_var`: walk the chain starting at the top of the
stack.  Fuel `scopes.length + 1` suffices whenever the parent links are
acyclic (each step strictly descends); on a state with a parent cycle the
Rust loop never returns and this embedding yields `none`. -/
def find_var (m : ScopeManager) (name : String) : Option Var :=
  match m.stack.head? with
  | none => none
  | some id => (find_var_fuel m name (m.scopes.length + 1) id true).join

/-- `ScopeManager::resolve_reference`, with fuel: follow `Reference` links
until a `Local` is reached.  The outer `none` means the fuel ran out (the
unbounded Rust recursion has not returned); `some r` means the Rust
function returned `r`. -/
def resolve_reference_fuel (m : ScopeManager) :
    Nat → Nat → Nat → Option (Option (Nat × Nat))
  | 0, _, _ => none
  | fuel + 1, scope, var =>
    match (m.get_scope scope).bind fun s => s.var_arena[var]? with
    | none => some none
    | some (Var.Reference scope' var') => resolve_reference_fuel m fuel scope' var'
    | some (Var.Local value) => some (some (scope, value))

/-- Total number of vars across all arenas: an upper bound on the length
of any acyclic reference chain. -/
def totalVars (m : ScopeManager) : Nat :=
  (m.scopes.map fun s => s.var_arena.length).sum

/-- `ScopeManager::resolve_reference`.  The Rust recursion is unbounded;
fuel `totalVars + 1` suffices for every acyclic chain (an acyclic chain
visits pairwise distinct stored vars), so this embedding agrees with the
Rust function whenever the latter terminates, and returns `none` on the
cyclic states where the Rust recursion diverges. -/
def resolve_reference (m : ScopeManager) (scope : Nat) (var : Nat) :
    Option (Nat × Nat) :=
  (resolve_reference_fuel m (totalVars m + 1) scope var).join

/-- The parameter extraction applied to a resolved function's parameter
tokens throughout `src/visitor.rs`:
the trimmed display string of the token and its start position (default
position when absent). -/
def extractParamPairs (params : List Param) : List (String × Pos) :=
  params.map fun p => (p.name |> strTrim, p.pos.getD default)

/-- `ScopeManager::extract_params` from `src/visitor.rs`: unwrap
parentheses; a function value yields its parameters; a bare-name variable
is resolved through `find_var` and, per the variant found, the current
scope's arena (`Local`) or `resolve_reference` (`Reference`); everything
else yields `None`. -/
def extract_params (m : ScopeManager) : LuaExpression → Option (List (String × Pos))
  | .value v =>
    match v with
    | .function f => some (extractParamPairs f.parameters)
    | .parenthesesExpression e => extract_params m e
    | .var (.name t) =>
      let name := t |> strTrim
      (find_var m name).bind fun var =>
        match var with
        | .Local val_id =>
            m.get_current_scope.bind fun sc =>
              sc.value_arena[val_id]?.bind fun val =>
                match val with
                | .function f => some (extractParamPairs f.parameters)
                | _ => none
        | .Reference scope_id var_id =>
            (resolve_reference m scope_id var_id).bind fun sv =>
              (m.get_scope sv.1).bind fun sc =>
                sc.value_arena[sv.2]?.bind fun val =>
                  match val with
                  | .function f => some (extractParamPairs f.parameters)
                  | _ => none
    | .var _ => none
    | _ => none
  | .parentheses e => extract_params m e
  | .other => none

/-- The `let var = ...` chain of `visit_function_call` for a bare-name
callee: look the name up, turn the found var into a `(scope, value)` pair
(`Local` pairs with the current scope id, `Reference` goes through
`resolve_reference`), fetch the value, and keep it only if it is a
function. -/
def call_callee_function (m : ScopeManager) (curr_scope : Nat) (name : String) :
    Option FunctionBody :=
  ((find_var m name).bind fun var =>
      match var with
      | Var.Local val => some (curr_scope, val)
      | Var.Reference scope var => resolve_reference m scope var).bind
    fun sv =>
      (m.get_value sv.1 sv.2).bind fun val =>
        match val with
        | .function f => some f
        | _ => none

/-- The callee-resolution half of `visit_function_call` (the `match
node.prefix()` computing `params`).  The outer `none` is the panic of
`get_current_scope_id().unwrap()` on an empty stack; `some none` is an
early `return` (no hints); `some (some params)` proceeds to hint
emission. -/
def call_params (m : ScopeManager) (node : FunctionCall) :
    Option (Option (List (String × Pos))) :=
  match node.pfx with
  | .name n =>
    let name := n |> strTrim
    match m.get_current_scope_id with
    | none => none
    | some curr_scope =>
      match call_callee_function m curr_scope name with
      | some f => some (some (extractParamPairs f.parameters))
      | none => some none
  | .expression e =>
    match extract_params m e with
    | some params => some (some params)
    | none => some none
  | .other => some none

/-- The hint built for one `(argument, parameter)` pair:
position = the argument's start position (`usize` fields cast `as u32`),
label = the parameter's extracted name, kind = `PARAMETER`. -/
def mkHint (arg : PExpr) (param : String × Pos) : InlayHint :=
  let pos := arg.start.getD default
  { line := pos.line % 2 ^ 32,
    character := pos.character % 2 ^ 32,
    label := param.1,
    kind := 2 }

/-- `visit_function_call` from `src/visitor.rs`: resolve the callee's
parameters, then, if the FIRST suffix is an anonymous call with a
parenthesized argument list, push one hint per `(argument, parameter)`
zip pair.  `none` models the panic on an empty stack. -/
def visit_function_call (m : ScopeManager) (node : FunctionCall) : Option ScopeManager :=
  match call_params m node with
  | none => none
  | some none => some m
  | some (some params) =>
    match node.suffixes.head? with
    | some (.call (.anonymousCall (.parentheses args))) =>
        some { m with hints := m.hints ++ (args.zip params).map fun ap => mkHint ap.1 ap.2 }
    | _ => some m

/-- `visit_local_function`: allocate `name ↦ Function(body)` in the
current scope (skipping silently when there is none) and push the name
for the body's scope.  Note the source does NOT trim this name. -/
def visit_local_function (m : ScopeManager) (name : String) (body : FunctionBody) :
    ScopeManager :=
  match m.stack.head? with
  | none => m
  | some id =>
    match m.scopes[id]? with
    | none => m
    | some s =>
      let p := s.alloc_local name (LuaValue.function body)
      (m.setScope id p.1).name_next_scope name

/-- `visit_function_declaration`: allocate the (trimmed) declared name in
the ROOT scope (`stack.first()`), push the root scope id onto the stack,
and push the pending name. -/
def visit_function_declaration (m : ScopeManager) (name : String) (body : FunctionBody) :
    ScopeManager × List StackOp :=
  match m.stack.getLast? with
  | none => (m, [])
  | some global_id =>
    match m.scopes[global_id]? with
    | none => (m, [])
    | some s =>
      let nm := name |> strTrim
      let p := s.alloc_local nm (LuaValue.function body)
      let m := m.setScope global_id p.1
      let m := { m with stack := global_id :: m.stack }
      (m.name_next_scope nm, [StackOp.push])

/-- The body of the `for_each` closure of `visit_assignment`: a bare-name
target whose expression is a `Value` is recorded in the root scope; any
other shape makes the closure return early (skipping that pair). -/
def assign_pair (global_id : Nat) (m : ScopeManager) (ve : LuaVar × LuaExpression) :
    ScopeManager :=
  match ve.1, ve.2 with
  | LuaVar.name n, LuaExpression.value val =>
    match m.scopes[global_id]? with
    | none => m
    | some s =>
      let nm := n |> strTrim
      let p := s.alloc_local nm val
      (m.setScope global_id p.1).name_next_scope nm
  | _, _ => m

/-- `visit_assignment`: push the root scope onto the stack, then for each
pair of the REVERSED target list zipped against the expression list,
record the pair via `assign_pair`. -/
def visit_assignment (m : ScopeManager) (vars : List LuaVar) (exprs : List LuaExpression) :
    ScopeManager × List StackOp :=
  match m.stack.getLast? with
  | none => (m, [])
  | some global_id =>
    let m := { m with stack := global_id :: m.stack }
    ((vars.reverse.zip exprs).foldl (assign_pair global_id) m, [StackOp.push])

/-- The body of the `for_each` closure of `visit_local_assignment`: a name
whose expression is a `Value` is recorded in the current scope; any other
shape (or a missing current scope) makes the closure return early. -/
def local_assign_pair (m : ScopeManager) (ne : String × LuaExpression) : ScopeManager :=
  match ne.2 with
  | LuaExpression.value val =>
    match m.stack.head? with
    | none => m
    | some id =>
      match m.scopes[id]? with
      | none => m
      | some s =>
        let nm := ne.1 |> strTrim
        let p := s.alloc_local nm val
        (m.setScope id p.1).name_next_scope nm
  | _ => m

/-- `visit_local_assignment`: for each name zipped against its expression,
record the pair via `local_assign_pair`. -/
def visit_local_assignment (m : ScopeManager) (names : List String)
    (exprs : List LuaExpression) : ScopeManager :=
  (names.zip exprs).foldl local_assign_pair m

/-- One callback of the full_moon `Visitor` trait that the pass
implements (entry callbacks carry the node data the handler reads). -/
inductive VisitEvent where
  | block (b : Block)
  | blockEnd
  | localFunction (name : String) (body : FunctionBody)
  | functionDeclaration (name : String) (body : FunctionBody)
  | functionDeclarationEnd
  | assignment (vars : List LuaVar) (exprs : List LuaExpression)
  | assignmentEnd
  | localAssignment (names : List String) (exprs : List LuaExpression)
  | localAssignmentEnd
  | functionCall (c : FunctionCall)

/-- Dispatch one visitor callback to its handler (the `impl Visitor for
ScopeManager` block of `src/visitor.rs`), also reporting the stack
operations the handler performed.  `none` models a panic. -/
def step (m : ScopeManager) : VisitEvent → Option (ScopeManager × List StackOp)
  | .block _ => some ((m.open_scope).1, [StackOp.push])
  | .blockEnd => some (m.close_scope, [StackOp.pop])
  | .localFunction name body => some (visit_local_function m name body, [])
  | .functionDeclaration name body => some (visit_function_declaration m name body)
  | .functionDeclarationEnd => some ({ m with stack := m.stack.tail }, [StackOp.pop])
  | .assignment vars exprs => some (visit_assignment m vars exprs)
  | .assignmentEnd => some (m.close_scope, [StackOp.pop])
  | .localAssignment names exprs => some (visit_local_assignment m names exprs, [])
  | .localAssignmentEnd => some (m, [])
  | .functionCall c => (visit_function_call m c).map fun m' => (m', [])

/-- Fold the handlers over a callback sequence, accumulating the stack
operations performed. -/
def runEvents (m : ScopeManager) : List VisitEvent → Option (ScopeManager × List StackOp)
  | [] => some (m, [])
  | e :: rest =>
    (step m e).bind fun p =>
      (runEvents p.1 rest).map fun q => (q.1, p.2 ++ q.2)

mutual

/-- The callback sequence full_moon delivers for a block: `visit_block`,
the statements' callbacks, `visit_block_end`. -/
def blockEvents : Block → List VisitEvent
  | .mk stmts => VisitEvent.block (Block.mk stmts) :: (stmtsEvents stmts ++ [VisitEvent.blockEnd])

/-- Callback sequence of a statement list, in order. -/
def stmtsEvents : List Stmt → List VisitEvent
  | [] => []
  | s :: rest => stmtEvents s ++ stmtsEvents rest

/-- Callback sequence of one statement: the entry callback, the children's
callbacks, then the `_end` callback where the pass implements one. -/
def stmtEvents : Stmt → List VisitEvent
  | .localAssignment names exprs =>
      VisitEvent.localAssignment names exprs ::
        (exprsEvents exprs ++ [VisitEvent.localAssignmentEnd])
  | .assignment vars exprs =>
      VisitEvent.assignment vars exprs :: (exprsEvents exprs ++ [VisitEvent.assignmentEnd])
  | .localFunction name body => VisitEvent.localFunction name body :: bodyEvents body
  | .functionDeclaration name body =>
      VisitEvent.functionDeclaration name body ::
        (bodyEvents body ++ [VisitEvent.functionDeclarationEnd])
  | .functionCall c => callEvents c
  | .doStmt b => blockEvents b

/-- Callback sequence of a function body: its block's callbacks. -/
def bodyEvents : FunctionBody → List VisitEvent
  | .mk _ block => blockEvents block

/-- Callback sequence of an expression list, in order. -/
def exprsEvents : List LuaExpression → List VisitEvent
  | [] => []
  | e :: rest => exprEvents e ++ exprsEvents rest

/-- Callback sequence of an expression: only nested blocks and calls
produce callbacks the pass handles. -/
def exprEvents : LuaExpression → List VisitEvent
  | .value v => valueEvents v
  | .parentheses e => exprEvents e
  | .other => []

/-- Callback sequence of a value. -/
def valueEvents : LuaValue → List VisitEvent
  | .function body => bodyEvents body
  | .parenthesesExpression e => exprEvents e
  | .var _ => []
  | .functionCall c => callEvents c
  | .other => []

/-- Callback sequence of a call: `visit_function_call`, then the head's
and the suffixes' children. -/
def callEvents : FunctionCall → List VisitEvent
  | .mk pfx suffixes =>
      VisitEvent.functionCall (FunctionCall.mk pfx suffixes) ::
        (pfxEvents pfx ++ suffixesEvents suffixes)

/-- Callback sequence of a call head. -/
def pfxEvents : Pfx → List VisitEvent
  | .expression e => exprEvents e
  | .name _ => []
  | .other => []

/-- Callback sequence of a suffix list, in order. -/
def suffixesEvents : List Suffix → List VisitEvent
  | [] => []
  | s :: rest => suffixEvents s ++ suffixesEvents rest

/-- Callback sequence of one suffix. -/
def suffixEvents : Suffix → List VisitEvent
  | .call c => callSfxEvents c
  | .index => []

/-- Callback sequence of a call suffix's arguments. -/
def callSfxEvents : CallSfx → List VisitEvent
  | .anonymousCall args => argsEvents args
  | .methodCall _ args => argsEvents args

/-- Callback sequence of a `FunctionArgs`. -/
def argsEvents : FunctionArgs → List VisitEvent
  | .parentheses ps => pexprsEvents ps
  | .stringArg _ => []
  | .tableConstructor => []

/-- Callback sequence of an argument list, in order. -/
def pexprsEvents : List PExpr → List VisitEvent
  | [] => []
  | p :: rest => pexprEvents p ++ pexprsEvents rest

/-- Callback sequence of one argument. -/
def pexprEvents : PExpr → List VisitEvent
  | .mk e _ => exprEvents e

end

/-- `ScopeManager::new(ast)`: start from the initial manager and run one
full traversal of the tree's root block. -/
def ScopeManager.new (ast : Block) : Option (ScopeManager × List StackOp) :=
  runEvents initManager (blockEvents ast)

/-- The per-document state of `src/lsp.rs` (`Doc`): the rope is modelled
as the full text it holds. -/
structure Doc where
  text : String
  version : Int
  uri : String

/-- `DashMap<Url, Doc>::get`, modelled over an association list. -/
def lookupDoc (docs : List (String × Doc)) (uri : String) : Option Doc :=
  (docs.find? fun p => p.1 = uri).map fun p => p.2

/-- The `inlay_hint` request handler of `src/lsp.rs`: unknown document →
`Ok(None)`; parse failure → `Err(internal_error)`; otherwise run the pass
and return its hints.  The external parser is a parameter; the outer
`none` models a panic escaping the pass. -/
def inlay_hint (parse : String → Option Block) (docs : List (String × Doc))
    (uri : String) : Option (Except Unit (Option (List InlayHint))) :=
  match lookupDoc docs uri with
  | none => some (Except.ok none)
  | some doc =>
    match parse doc.text with
    | none => some (Except.error ())
    | some ast => (ScopeManager.new ast).map fun p => Except.ok (some p.1.hints)

/-! ### Specification-side definitions and state predicates -/

/-- Modelled from the spec (§4.3 `find_var`): "search the scope stack from
innermost to root.  The first scope where `name` is found returns: if that
scope is the innermost (current) scope, the binding's own `Var` value
unchanged; otherwise, a freshly synthesized `Reference(foundScopeId,
foundVarId)`.  If no scope in the chain defines the name, resolution
fails."  The walk is phrased over scope identity (`id = top`), where the
implementation uses a first-iteration flag; fuel as in `find_var`. -/
def find_var_spec_walk (m : ScopeManager) (name : String) (top : Nat) :
    Nat → Nat → Option Var
  | 0, _ => none
  | fuel + 1, id =>
    match m.scopes[id]? with
    | none => none
    | some scope =>
      match lookupName scope.var_names name with
      | some vid =>
          if id = top then scope.var_arena[vid]?
          else some (Var.Reference id vid)
      | none =>
        match scope.parent with
        | some parent => find_var_spec_walk m name top fuel parent
        | none => none

/-- Modelled from the spec: the whole `find_var` contract, starting at the
innermost (top-of-stack) scope. -/
def find_var_spec (m : ScopeManager) (name : String) : Option Var :=
  match m.stack.head? with
  | none => none
  | some top => find_var_spec_walk m name top (m.scopes.length + 1) top

/-- Parent links strictly descend (each scope's parent was created
earlier): the scope-tree acyclicity invariant, checked positionally. -/
def scopesParentsOkFrom : List Scope → Nat → Bool
  | [], _ => true
  | s :: rest, i =>
    (match s.parent with
     | some p => decide (p < i)
     | none => true) && scopesParentsOkFrom rest (i + 1)

/-- The scope tree has no parent cycles. -/
def parents_ok (m : ScopeManager) : Bool :=
  scopesParentsOkFrom m.scopes 0

/-- Is this var a `Local`? -/
def isLocalVar : Var → Bool
  | .Local _ => true
  | .Reference _ _ => false

/-- Every var stored in any scope's var arena is a `Local`. -/
def allLocal (m : ScopeManager) : Bool :=
  m.scopes.all fun s => s.var_arena.all isLocalVar

/-- The Rust `resolve_reference` recursion never returns on this input:
every fuel bound is exhausted. -/
def resolveDiverges (m : ScopeManager) (scope : Nat) (var : Nat) : Prop :=
  ∀ fuel, resolve_reference_fuel m fuel scope var = none

/-- The builder stack is nonempty and every id on it indexes a scope. -/
def stackOk (m : ScopeManager) : Prop :=
  m.stack ≠ [] ∧ ∀ id ∈ m.stack, id < m.scopes.length

/-- Running a callback sequence from any healthy state succeeds (no
panic), restores the stack exactly, never discards scopes, and performs
equally many pushes and pops. -/
def BalancedRun (evs : List VisitEvent) : Prop :=
  ∀ m : ScopeManager, stackOk m →
    ∃ m' ops, runEvents m evs = some (m', ops) ∧ m'.stack = m.stack ∧
      m.scopes.length ≤ m'.scopes.length ∧
      ops.count StackOp.push = ops.count StackOp.pop

/-- Well-bracketed callback sequences: entry and `_end` callbacks nest
like the tree constructs that generate them. -/
inductive Bal : List VisitEvent → Prop where
  | nil : Bal []
  | append {l₁ l₂ : List VisitEvent} : Bal l₁ → Bal l₂ → Bal (l₁ ++ l₂)
  | block {l : List VisitEvent} (b : Block) :
      Bal l → Bal (VisitEvent.block b :: (l ++ [VisitEvent.blockEnd]))
  | fndecl {l : List VisitEvent} (name : String) (body : FunctionBody) :
      Bal l →
      Bal (VisitEvent.functionDeclaration name body ::
        (l ++ [VisitEvent.functionDeclarationEnd]))
  | asg {l : List VisitEvent} (vars : List LuaVar) (exprs : List LuaExpression) :
      Bal l → Bal (VisitEvent.assignment vars exprs :: (l ++ [VisitEvent.assignmentEnd]))
  | localAsg {l : List VisitEvent} (names : List String) (exprs : List LuaExpression) :
      Bal l →
      Bal (VisitEvent.localAssignment names exprs :: (l ++ [VisitEvent.localAssignmentEnd]))
  | localFn {l : List VisitEvent} (name : String) (body : FunctionBody) :
      Bal l → Bal (VisitEvent.localFunction name body :: l)
  | call {l : List VisitEvent} (c : FunctionCall) :
      Bal l → Bal (VisitEvent.functionCall c :: l)

/-! ### Concrete states and nodes used by witnesses and counterexamples -/

/-- The body of `function add(x, y) return x + y end`. -/
def addBody : FunctionBody :=
  FunctionBody.mk [⟨"x", some ⟨1, 14⟩⟩, ⟨"y", some ⟨1, 17⟩⟩] (Block.mk [])

/-- A manager whose root scope binds `add` to that function (the state
after visiting the declaration). -/
def addManager : ScopeManager :=
  { scopes := [{ value_arena := [LuaValue.function addBody],
                 var_arena := [Var.Local 0],
                 var_names := [("add", 0)],
                 parent := none,
                 name := some "global" }],
    stack := [0],
    node_refs := [],
    hints := [],
    name_stack := [] }

/-- The argument expressions of the call `add(1, 2)`: the two literals at
line 2, characters 5 and 8. -/
def addArgs : List PExpr :=
  [PExpr.mk LuaExpression.other (some ⟨2, 5⟩),
   PExpr.mk LuaExpression.other (some ⟨2, 8⟩)]

/-- The parameter pairs the pass extracts for `add`. -/
def addParams : List (String × Pos) :=
  [("x", ⟨1, 14⟩), ("y", ⟨1, 17⟩)]

/-- The call `add(1, 2)`. -/
def addCall : FunctionCall :=
  FunctionCall.mk (Pfx.name "add")
    [Suffix.call (CallSfx.anonymousCall (FunctionArgs.parentheses addArgs))]

/-- Is this suffix an anonymous call with a parenthesized argument list
(the only shape whose arguments receive hints)? -/
def isAnonParenSfx : Suffix → Bool
  | .call (.anonymousCall (.parentheses _)) => true
  | _ => false

/-- The state after the builder records `local function f` (body `addBody`)
from the initial state. -/
def localFnManager : ScopeManager :=
  visit_local_function initManager "f" addBody

/-- `addManager` extended with an open child scope (stack `[1, 0]`),
so lookups of `add` have to leave the current scope. -/
def childManager : ScopeManager :=
  { addManager with
    scopes := addManager.scopes ++ [Scope.new (some 0)],
    stack := [1, 0] }

/-- A state whose single stored var aliases itself: the minimal cyclic
reference chain. -/
def cycManager : ScopeManager :=
  { scopes := [{ value_arena := [],
                 var_arena := [Var.Reference 0 0],
                 var_names := [("a", 0)],
                 parent := none,
                 name := none }],
    stack := [0],
    node_refs := [],
    hints := [],
    name_stack := [] }

/-- The call `(add)(1)`: a parenthesized bare-name callee (a non-`Name`
call head) with one parenthesized argument. -/
def parenCall : FunctionCall :=
  FunctionCall.mk
    (Pfx.expression (LuaExpression.parentheses
      (LuaExpression.value (LuaValue.var (LuaVar.name "add")))))
    [Suffix.call (CallSfx.anonymousCall (FunctionArgs.parentheses
      [PExpr.mk LuaExpression.other (some ⟨3, 7⟩)]))]

/-- The method call `add:foo(1)`. -/
def methodCallNode : FunctionCall :=
  FunctionCall.mk (Pfx.name "add")
    [Suffix.call (CallSfx.methodCall "foo" (FunctionArgs.parentheses
      [PExpr.mk LuaExpression.other (some ⟨4, 9⟩)]))]

/-- A function body with single parameter `a`. -/
def fnABody : FunctionBody := FunctionBody.mk [⟨"a", some ⟨1, 12⟩⟩] (Block.mk [])

/-- A function body with single parameter `b`. -/
def fnBBody : FunctionBody := FunctionBody.mk [⟨"b", some ⟨1, 30⟩⟩] (Block.mk [])

/-- The multi-target bare assignment `x, y = function(a) end, function(b) end`. -/
def crossAssignEvent : VisitEvent :=
  VisitEvent.assignment [LuaVar.name "x", LuaVar.name "y"]
    [LuaExpression.value (LuaValue.function fnABody),
     LuaExpression.value (LuaValue.function fnBBody)]

/-- The declared parameter names of the function value bound to `n` in the
root scope of `m` (resolution as the hint generator performs it). -/
def rootFunctionParams (m : ScopeManager) (n : String) : Option (List String) :=
  (find_var m n).bind fun v =>
    match v with
    | Var.Local val =>
      (m.get_value 0 val).bind fun lv =>
        match lv with
        | LuaValue.function f => some (f.parameters.map Param.name)
        | _ => none
    | _ => none

/-! ### Basic lemmas about the run and the handlers -/

@[simp]
theorem runEvents_nil (m : ScopeManager) : runEvents m [] = some (m, []) := rfl

theorem runEvents_cons (m : ScopeManager) (e : VisitEvent) (evs : List VisitEvent) :
    runEvents m (e :: evs) =
      (step m e).bind fun p => (runEvents p.1 evs).map fun q => (q.1, p.2 ++ q.2) := rfl

theorem runEvents_append (l₁ l₂ : List VisitEvent) (m : ScopeManager) :
    runEvents m (l₁ ++ l₂) =
      (runEvents m l₁).bind fun p => (runEvents p.1 l₂).map fun q => (q.1, p.2 ++ q.2) := by
  induction l₁ generalizing m with
  | nil => simp
  | cons e rest ih =>
    simp only [List.cons_append, runEvents_cons, ih]
    cases step m e with
    | none => simp
    | some p =>
      simp only [Option.some_bind]
      cases runEvents p.1 rest with
      | none => simp
      | some q =>
        simp only [Option.map_some', Option.some_bind]
        cases runEvents q.1 l₂ with
        | none => simp
        | some r => simp [List.append_assoc]

theorem open_scope_stack (m : ScopeManager) :
    (m.open_scope).1.stack = m.scopes.length :: m.stack := by
  unfold ScopeManager.open_scope
  cases m.name_stack <;> rfl

theorem open_scope_scopes_length (m : ScopeManager) :
    (m.open_scope).1.scopes.length = m.scopes.length + 1 := by
  unfold ScopeManager.open_scope
  cases m.name_stack <;> simp

theorem setScope_stack (m : ScopeManager) (id : Nat) (s : Scope) :
    (m.setScope id s).stack = m.stack := rfl

theorem setScope_scopes_length (m : ScopeManager) (id : Nat) (s : Scope) :
    (m.setScope id s).scopes.length = m.scopes.length := by
  simp [ScopeManager.setScope]

theorem name_next_scope_stack (m : ScopeManager) (n : String) :
    (m.name_next_scope n).stack = m.stack := rfl

theorem visit_local_function_stack (m : ScopeManager) (n : String) (b : FunctionBody) :
    (visit_local_function m n b).stack = m.stack := by
  unfold visit_local_function
  split
  · rfl
  · split
    · rfl
    · rfl

theorem visit_local_function_scopes_length (m : ScopeManager) (n : String)
    (b : FunctionBody) : (visit_local_function m n b).scopes.length = m.scopes.length := by
  unfold visit_local_function
  split
  · rfl
  · split
    · rfl
    · simp [ScopeManager.setScope, ScopeManager.name_next_scope]

theorem assign_pair_stack (gid : Nat) (m : ScopeManager) (ve : LuaVar × LuaExpression) :
    (assign_pair gid m ve).stack = m.stack := by
  unfold assign_pair
  split
  · split
    · rfl
    · rfl
  · rfl

theorem assign_pair_scopes_length (gid : Nat) (m : ScopeManager)
    (ve : LuaVar × LuaExpression) :
    (assign_pair gid m ve).scopes.length = m.scopes.length := by
  unfold assign_pair
  split
  · split
    · rfl
    · simp [ScopeManager.setScope, ScopeManager.name_next_scope]
  · rfl

theorem assign_fold_stack (gid : Nat) (l : List (LuaVar × LuaExpression))
    (m : ScopeManager) : (l.foldl (assign_pair gid) m).stack = m.stack := by
  induction l generalizing m with
  | nil => rfl
  | cons ve rest ih => rw [List.foldl_cons, ih, assign_pair_stack]

theorem assign_fold_scopes_length (gid : Nat) (l : List (LuaVar × LuaExpression))
    (m : ScopeManager) : (l.foldl (assign_pair gid) m).scopes.length = m.scopes.length := by
  induction l generalizing m with
  | nil => rfl
  | cons ve rest ih => rw [List.foldl_cons, ih, assign_pair_scopes_length]

theorem local_assign_pair_stack (m : ScopeManager) (ne : String × LuaExpression) :
    (local_assign_pair m ne).stack = m.stack := by
  unfold local_assign_pair
  split
  · split
    · rfl
    · split
      · rfl
      · rfl
  · rfl

theorem local_assign_pair_scopes_length (m : ScopeManager) (ne : String × LuaExpression) :
    (local_assign_pair m ne).scopes.length = m.scopes.length := by
  unfold local_assign_pair
  split
  · split
    · rfl
    · split
      · rfl
      · simp [ScopeManager.setScope, ScopeManager.name_next_scope]
  · rfl

theorem visit_local_assignment_stack (m : ScopeManager) (names : List String)
    (exprs : List LuaExpression) :
    (visit_local_assignment m names exprs).stack = m.stack := by
  unfold visit_local_assignment
  generalize names.zip exprs = l
  induction l generalizing m with
  | nil => rfl
  | cons ne rest ih => rw [List.foldl_cons, ih, local_assign_pair_stack]

theorem visit_local_assignment_scopes_length (m : ScopeManager) (names : List String)
    (exprs : List LuaExpression) :
    (visit_local_assignment m names exprs).scopes.length = m.scopes.length := by
  unfold visit_local_assignment
  generalize names.zip exprs = l
  induction l generalizing m with
  | nil => rfl
  | cons ne rest ih => rw [List.foldl_cons, ih, local_assign_pair_scopes_length]

theorem call_params_ne_none (m : ScopeManager) (c : FunctionCall) (h : m.stack ≠ []) :
    call_params m c ≠ none := by
  unfold call_params
  cases c.pfx with
  | name n =>
    simp only
    cases hs : m.get_current_scope_id with
    | none =>
      exact absurd (by simpa [ScopeManager.get_current_scope_id, List.head?_eq_none_iff] using hs) h
    | some curr =>
      simp only [hs]
      split <;> simp
  | expression e =>
    simp only
    split <;> simp
  | other => simp

theorem visit_function_call_hints (m : ScopeManager) (c : FunctionCall)
    (h : m.stack ≠ []) :
    ∃ hs, visit_function_call m c = some { m with hints := m.hints ++ hs } := by
  unfold visit_function_call
  cases hcp : call_params m c with
  | none => exact absurd hcp (call_params_ne_none m c h)
  | some o =>
    cases o with
    | none => exact ⟨[], by simp⟩
    | some params =>
      simp only
      split
      · exact ⟨_, rfl⟩
      · exact ⟨[], by simp⟩

theorem stack_getLast_spec (m : ScopeManager) (h : m.stack ≠ []) :
    ∃ gid, m.stack.getLast? = some gid ∧ gid ∈ m.stack :=
  ⟨m.stack.getLast h, List.getLast?_eq_getLast_of_ne_nil h, List.getLast_mem h⟩

theorem visit_function_declaration_spec (m : ScopeManager) (n : String) (b : FunctionBody)
    (h : stackOk m) :
    ∃ m' gid, visit_function_declaration m n b = (m', [StackOp.push]) ∧
      m'.stack = gid :: m.stack ∧ m'.scopes.length = m.scopes.length ∧ gid ∈ m.stack := by
  obtain ⟨gid0, hg, hmem⟩ := stack_getLast_spec m h.1
  have hlt := h.2 gid0 hmem
  unfold visit_function_declaration
  split
  next heq => rw [hg] at heq; cases heq
  next g heq =>
    rw [hg] at heq
    injection heq with heq
    subst heq
    split
    next heq2 => rw [List.getElem?_eq_getElem hlt] at heq2; cases heq2
    next s heq2 =>
      exact ⟨_, gid0, rfl, by simp [ScopeManager.setScope, ScopeManager.name_next_scope],
        by simp [ScopeManager.setScope, ScopeManager.name_next_scope], hmem⟩

theorem visit_assignment_spec (m : ScopeManager) (vars : List LuaVar)
    (exprs : List LuaExpression) (h : m.stack ≠ []) :
    ∃ m' gid, visit_assignment m vars exprs = (m', [StackOp.push]) ∧
      m'.stack = gid :: m.stack ∧ m'.scopes.length = m.scopes.length ∧ gid ∈ m.stack := by
  obtain ⟨gid, hg, hmem⟩ := stack_getLast_spec m h
  unfold visit_assignment
  rw [hg]
  exact ⟨_, gid, rfl, by rw [assign_fold_stack], by rw [assign_fold_scopes_length], hmem⟩

/-! ### Balance of the traversal (push/pop discipline) -/

theorem bal_balancedRun {l : List VisitEvent} (hb : Bal l) : BalancedRun l := by
  induction hb with
  | nil => exact fun m _ => ⟨m, [], rfl, rfl, le_refl _, rfl⟩
  | append h1 h2 ih1 ih2 =>
    intro m hm
    obtain ⟨m1, ops1, hr1, hs1, hl1, hc1⟩ := ih1 m hm
    have hm1 : stackOk m1 :=
      ⟨hs1 ▸ hm.1, fun id hid => lt_of_lt_of_le (hm.2 id (hs1 ▸ hid)) hl1⟩
    obtain ⟨m2, ops2, hr2, hs2, hl2, hc2⟩ := ih2 m1 hm1
    refine ⟨m2, ops1 ++ ops2, ?_, by rw [hs2, hs1], le_trans hl1 hl2,
      by simp [List.count_append, hc1, hc2]⟩
    rw [runEvents_append, hr1]
    simp [hr2]
  | block b _ ih =>
    intro m hm
    have hstack1 := open_scope_stack m
    have hlen1 := open_scope_scopes_length m
    have hm1 : stackOk (m.open_scope).1 := by
      constructor
      · rw [hstack1]; exact List.cons_ne_nil _ _
      · intro id hid
        rw [hstack1] at hid
        rw [hlen1]
        rcases List.mem_cons.mp hid with h | h
        · omega
        · have := hm.2 id h; omega
    obtain ⟨m2, ops2, hr2, hs2, hl2, hc2⟩ := ih _ hm1
    refine ⟨m2.close_scope, [StackOp.push] ++ (ops2 ++ [StackOp.pop]), ?_, ?_, ?_, ?_⟩
    · rw [runEvents_cons]
      show (some ((m.open_scope).1, [StackOp.push])).bind _ = _
      rw [Option.some_bind, runEvents_append, hr2]
      simp [runEvents, step]
    · show m2.stack.tail = m.stack
      rw [hs2, hstack1]
      rfl
    · show m.scopes.length ≤ m2.scopes.length
      rw [hlen1] at hl2
      omega
    · simp [List.count_append, List.count_cons, hc2]
  | fndecl name body _ ih =>
    intro m hm
    obtain ⟨m1, gid, hfd, hs1, hl1, hmem⟩ := visit_function_declaration_spec m name body hm
    have hm1 : stackOk m1 := by
      constructor
      · rw [hs1]; exact List.cons_ne_nil _ _
      · intro id hid
        rw [hs1] at hid
        rw [hl1]
        rcases List.mem_cons.mp hid with h | h
        · have := hm.2 gid hmem; omega
        · have := hm.2 id h; omega
    obtain ⟨m2, ops2, hr2, hs2, hl2, hc2⟩ := ih _ hm1
    refine ⟨{ m2 with stack := m2.stack.tail },
      [StackOp.push] ++ (ops2 ++ [StackOp.pop]), ?_, ?_, ?_, ?_⟩
    · rw [runEvents_cons]
      show (some (visit_function_declaration m name body)).bind _ = _
      rw [hfd, Option.some_bind, runEvents_append, hr2]
      simp [runEvents, step]
    · show m2.stack.tail = m.stack
      rw [hs2, hs1]
      rfl
    · show m.scopes.length ≤ m2.scopes.length
      exact le_of_eq_of_le hl1.symm hl2
    · simp [List.count_append, List.count_cons, hc2]
  | asg vars exprs _ ih =>
    intro m hm
    obtain ⟨m1, gid, hva, hs1, hl1, hmem⟩ := visit_assignment_spec m vars exprs hm.1
    have hm1 : stackOk m1 := by
      constructor
      · rw [hs1]; exact List.cons_ne_nil _ _
      · intro id hid
        rw [hs1] at hid
        rw [hl1]
        rcases List.mem_cons.mp hid with h | h
        · have := hm.2 gid hmem; omega
        · have := hm.2 id h; omega
    obtain ⟨m2, ops2, hr2, hs2, hl2, hc2⟩ := ih _ hm1
    refine ⟨m2.close_scope, [StackOp.push] ++ (ops2 ++ [StackOp.pop]), ?_, ?_, ?_, ?_⟩
    · rw [runEvents_cons]
      show (some (visit_assignment m vars exprs)).bind _ = _
      rw [hva, Option.some_bind, runEvents_append, hr2]
      simp [runEvents, step]
    · show m2.stack.tail = m.stack
      rw [hs2, hs1]
      rfl
    · show m.scopes.length ≤ m2.scopes.length
      exact le_of_eq_of_le hl1.symm hl2
    · simp [List.count_append, List.count_cons, hc2]
  | localAsg names exprs _ ih =>
    intro m hm
    have hs1 := visit_local_assignment_stack m names exprs
    have hl1 := visit_local_assignment_scopes_length m names exprs
    have hm1 : stackOk (visit_local_assignment m names exprs) := by
      constructor
      · rw [hs1]; exact hm.1
      · intro id hid
        rw [hs1] at hid
        rw [hl1]
        exact hm.2 id hid
    obtain ⟨m2, ops2, hr2, hs2, hl2, hc2⟩ := ih _ hm1
    refine ⟨m2, [] ++ (ops2 ++ []), ?_, by rw [hs2, hs1],
      le_of_eq_of_le hl1.symm hl2, by simp [List.count_append, hc2]⟩
    rw [runEvents_cons]
    show (some (visit_local_assignment m names exprs, [])).bind _ = _
    rw [Option.some_bind, runEvents_append, hr2]
    simp [runEvents, step]
  | localFn name body _ ih =>
    intro m hm
    have hs1 := visit_local_function_stack m name body
    have hl1 := visit_local_function_scopes_length m name body
    have hm1 : stackOk (visit_local_function m name body) := by
      constructor
      · rw [hs1]; exact hm.1
      · intro id hid
        rw [hs1] at hid
        rw [hl1]
        exact hm.2 id hid
    obtain ⟨m2, ops2, hr2, hs2, hl2, hc2⟩ := ih _ hm1
    refine ⟨m2, [] ++ ops2, ?_, by rw [hs2, hs1],
      le_of_eq_of_le hl1.symm hl2, by simp [List.count_append, hc2]⟩
    rw [runEvents_cons]
    show (some (visit_local_function m name body, [])).bind _ = _
    rw [Option.some_bind, hr2]
    rfl
  | call c _ ih =>
    intro m hm
    obtain ⟨hs, hvc⟩ := visit_function_call_hints m c hm.1
    have hm1 : stackOk { m with hints := m.hints ++ hs } := ⟨hm.1, hm.2⟩
    obtain ⟨m2, ops2, hr2, hs2, hl2, hc2⟩ := ih _ hm1
    refine ⟨m2, [] ++ ops2, ?_, by rw [hs2], hl2,
      by simp [List.count_append, hc2]⟩
    rw [runEvents_cons]
    show ((visit_function_call m c).map fun m' => (m', [])).bind _ = _
    rw [hvc]
    simp only [Option.map_some', Option.some_bind, hr2]

mutual

theorem blockEvents_bal : ∀ b : Block, Bal (blockEvents b)
  | .mk stmts => by
    rw [blockEvents]
    exact Bal.block _ (stmtsEvents_bal stmts)

theorem stmtsEvents_bal : ∀ l : List Stmt, Bal (stmtsEvents l)
  | [] => by rw [stmtsEvents]; exact Bal.nil
  | s :: rest => by
    rw [stmtsEvents]
    exact Bal.append (stmtEvents_bal s) (stmtsEvents_bal rest)

theorem stmtEvents_bal : ∀ s : Stmt, Bal (stmtEvents s)
  | .localAssignment names exprs => by
    rw [stmtEvents]
    exact Bal.localAsg names exprs (exprsEvents_bal exprs)
  | .assignment vars exprs => by
    rw [stmtEvents]
    exact Bal.asg vars exprs (exprsEvents_bal exprs)
  | .localFunction name body => by
    rw [stmtEvents]
    exact Bal.localFn name body (bodyEvents_bal body)
  | .functionDeclaration name body => by
    rw [stmtEvents]
    exact Bal.fndecl name body (bodyEvents_bal body)
  | .functionCall c => by
    rw [stmtEvents]
    exact callEvents_bal c
  | .doStmt b => by
    rw [stmtEvents]
    exact blockEvents_bal b

theorem bodyEvents_bal : ∀ body : FunctionBody, Bal (bodyEvents body)
  | .mk ps block => by
    rw [bodyEvents]
    exact blockEvents_bal block

theorem exprsEvents_bal : ∀ l : List LuaExpression, Bal (exprsEvents l)
  | [] => by rw [exprsEvents]; exact Bal.nil
  | e :: rest => by
    rw [exprsEvents]
    exact Bal.append (exprEvents_bal e) (exprsEvents_bal rest)

theorem exprEvents_bal : ∀ e : LuaExpression, Bal (exprEvents e)
  | .value v => by rw [exprEvents]; exact valueEvents_bal v
  | .parentheses e => by rw [exprEvents]; exact exprEvents_bal e
  | .other => by rw [exprEvents]; exact Bal.nil

theorem valueEvents_bal : ∀ v : LuaValue, Bal (valueEvents v)
  | .function body => by rw [valueEvents]; exact bodyEvents_bal body
  | .parenthesesExpression e => by rw [valueEvents]; exact exprEvents_bal e
  | .var _ => by rw [valueEvents]; exact Bal.nil
  | .functionCall c => by rw [valueEvents]; exact callEvents_bal c
  | .other => by rw [valueEvents]; exact Bal.nil

theorem callEvents_bal : ∀ c : FunctionCall, Bal (callEvents c)
  | .mk pfx suffixes => by
    rw [callEvents]
    exact Bal.call _ (Bal.append (pfxEvents_bal pfx) (suffixesEvents_bal suffixes))

theorem pfxEvents_bal : ∀ p : Pfx, Bal (pfxEvents p)
  | .expression e => by rw [pfxEvents]; exact exprEvents_bal e
  | .name _ => by rw [pfxEvents]; exact Bal.nil
  | .other => by rw [pfxEvents]; exact Bal.nil

theorem suffixesEvents_bal : ∀ l : List Suffix, Bal (suffixesEvents l)
  | [] => by rw [suffixesEvents]; exact Bal.nil
  | s :: rest => by
    rw [suffixesEvents]
    exact Bal.append (suffixEvents_bal s) (suffixesEvents_bal rest)

theorem suffixEvents_bal : ∀ s : Suffix, Bal (suffixEvents s)
  | .call c => by rw [suffixEvents]; exact callSfxEvents_bal c
  | .index => by rw [suffixEvents]; exact Bal.nil

theorem callSfxEvents_bal : ∀ c : CallSfx, Bal (callSfxEvents c)
  | .anonymousCall args => by rw [callSfxEvents]; exact argsEvents_bal args
  | .methodCall _ args => by rw [callSfxEvents]; exact argsEvents_bal args

theorem argsEvents_bal : ∀ a : FunctionArgs, Bal (argsEvents a)
  | .parentheses ps => by rw [argsEvents]; exact pexprsEvents_bal ps
  | .stringArg _ => by rw [argsEvents]; exact Bal.nil
  | .tableConstructor => by rw [argsEvents]; exact Bal.nil

theorem pexprsEvents_bal : ∀ l : List PExpr, Bal (pexprsEvents l)
  | [] => by rw [pexprsEvents]; exact Bal.nil
  | p :: rest => by
    rw [pexprsEvents]
    exact Bal.append (pexprEvents_bal p) (pexprsEvents_bal rest)

theorem pexprEvents_bal : ∀ p : PExpr, Bal (pexprEvents p)
  | .mk e _ => by rw [pexprEvents]; exact exprEvents_bal e

end

theorem initManager_stackOk : stackOk initManager := by
  constructor
  · simp [initManager]
  · intro id hid
    simp [initManager] at hid
    simp [initManager, hid]

theorem scopeManager_new_balanced (ast : Block) :
    ∃ m' ops, ScopeManager.new ast = some (m', ops) ∧ m'.stack = [0] ∧
      ops.count StackOp.push = ops.count StackOp.pop := by
  obtain ⟨m', ops, hr, hstack, _, hc⟩ :=
    bal_balancedRun (blockEvents_bal ast) initManager initManager_stackOk
  exact ⟨m', ops, hr, by rw [hstack]; rfl, hc⟩

/-! ### The resolver against its specification -/

theorem scopesParentsOkFrom_spec :
    ∀ (l : List Scope) (k j : Nat) (s : Scope), scopesParentsOkFrom l k = true →
      l[j]? = some s → ∀ p, s.parent = some p → p < k + j := by
  intro l
  induction l with
  | nil => intro k j s _ hj; simp at hj
  | cons s0 rest ih =>
    intro k j s hok hj p hp
    rw [scopesParentsOkFrom, Bool.and_eq_true] at hok
    cases j with
    | zero =>
      simp at hj
      subst hj
      have h1 := hok.1
      rw [hp] at h1
      simp at h1
      omega
    | succ j' =>
      simp only [List.getElem?_cons_succ] at hj
      have := ih (k + 1) j' s hok.2 hj p hp
      omega

theorem parents_ok_parent_lt (m : ScopeManager) (hp : parents_ok m = true)
    {i : Nat} {s : Scope} (hs : m.scopes[i]? = some s) {p : Nat}
    (hpar : s.parent = some p) : p < i := by
  have := scopesParentsOkFrom_spec m.scopes 0 i s hp hs p hpar
  omega

theorem find_var_fuel_spec_walk (m : ScopeManager) (name : String) (top : Nat)
    (hp : parents_ok m = true) :
    ∀ fuel id, id < fuel → id ≤ top → ∀ orig : Bool, (orig = true ↔ id = top) →
      find_var_fuel m name fuel id orig = some (find_var_spec_walk m name top fuel id) := by
  intro fuel
  induction fuel with
  | zero => intro id h; omega
  | succ f ih =>
    intro id hfuel htop orig horig
    rw [find_var_fuel, find_var_spec_walk]
    cases hid : m.scopes[id]? with
    | none => rfl
    | some scope =>
      simp only
      cases hlook : lookupName scope.var_names name with
      | some vid =>
        simp only
        cases orig with
        | true =>
          have : id = top := horig.mp rfl
          simp [this]
        | false =>
          have : ¬id = top := by
            intro h
            exact absurd (horig.mpr h) (by simp)
          simp [this]
      | none =>
        simp only
        cases hpar : scope.parent with
        | none => rfl
        | some p =>
          have hplt : p < id := parents_ok_parent_lt m hp hid hpar
          exact ih p (by omega) (by omega) false (by simp; omega)

/-- Claim C2: on every state whose parent links are acyclic (all states the
builder constructs), `find_var` behaves exactly as specified: it walks the
scope chain from the innermost scope outward to the root; the first scope
defining the name yields the stored `Var` unchanged when that scope is the
innermost one and a synthesized `Reference(foundScope, foundVar)`
otherwise; when no scope in the chain defines the name the lookup is
unresolved (`none`). -/
theorem find_var_eq_spec (m : ScopeManager) (hp : parents_ok m = true) (name : String) :
    find_var m name = find_var_spec m name := by
  unfold find_var find_var_spec
  cases htop : m.stack.head? with
  | none => rfl
  | some top =>
    simp only
    by_cases hlt : top < m.scopes.length
    · rw [find_var_fuel_spec_walk m name top hp (m.scopes.length + 1) top (by omega)
        (le_refl top) true (by simp)]
      rfl
    · have hnone : m.scopes[top]? = none := by
        rw [List.getElem?_eq_none_iff]
        omega
      have h1 : ∀ f, find_var_fuel m name (f + 1) top true = some none := fun f => by
        rw [find_var_fuel, hnone]
      have h2 : ∀ f, find_var_spec_walk m name top (f + 1) top = none := fun f => by
        rw [find_var_spec_walk, hnone]
      rw [h1 m.scopes.length, h2 m.scopes.length]
      rfl

/-! ### Append-only arenas -/

theorem getElem?_append_of_some {α : Type} {l l₂ : List α} {k : Nat} {v : α}
    (h : l[k]? = some v) : (l ++ l₂)[k]? = some v := by
  have hk : k < l.length := by
    by_contra hk
    rw [List.getElem?_eq_none_iff.mpr (by omega)] at h
    cases h
  rw [List.getElem?_append]
  simp [hk, h]

/-- `m'` keeps every arena entry of `m`: every scope id still resolves,
and every value/var stored in it is still stored unchanged at the same
id. -/
@[reducible]
def arenasPreserved (m m' : ScopeManager) : Prop :=
  ∀ (sid : Nat) (scope : Scope), m.scopes[sid]? = some scope →
    ∃ scope' : Scope, m'.scopes[sid]? = some scope' ∧
      (∀ (k : Nat) (v : LuaValue),
        scope.value_arena[k]? = some v → scope'.value_arena[k]? = some v) ∧
      (∀ (k : Nat) (v : Var),
        scope.var_arena[k]? = some v → scope'.var_arena[k]? = some v)

theorem arenasPreserved_refl (m : ScopeManager) : arenasPreserved m m :=
  fun _ scope h => ⟨scope, h, fun _ _ hv => hv, fun _ _ hv => hv⟩

theorem arenasPreserved_of_eq {m m' : ScopeManager} (h : m'.scopes = m.scopes) :
    arenasPreserved m m' :=
  fun _ scope hs => ⟨scope, h ▸ hs, fun _ _ hv => hv, fun _ _ hv => hv⟩

theorem arenasPreserved_trans {m₁ m₂ m₃ : ScopeManager}
    (h₁ : arenasPreserved m₁ m₂) (h₂ : arenasPreserved m₂ m₃) :
    arenasPreserved m₁ m₃ := by
  intro sid scope hs
  obtain ⟨s₂, hs₂, hval₂, hvar₂⟩ := h₁ sid scope hs
  obtain ⟨s₃, hs₃, hval₃, hvar₃⟩ := h₂ sid s₂ hs₂
  exact ⟨s₃, hs₃, fun k v hv => hval₃ k v (hval₂ k v hv),
    fun k v hv => hvar₃ k v (hvar₂ k v hv)⟩

theorem arenasPreserved_append (m : ScopeManager) (s : Scope) :
    arenasPreserved m { m with scopes := m.scopes ++ [s] } :=
  fun _ scope hs => ⟨scope, getElem?_append_of_some hs, fun _ _ hv => hv, fun _ _ hv => hv⟩

theorem arenasPreserved_open_scope (m : ScopeManager) :
    arenasPreserved m (m.open_scope).1 := by
  unfold ScopeManager.open_scope
  cases m.name_stack <;> exact fun _ scope hs =>
    ⟨scope, getElem?_append_of_some hs, fun _ _ hv => hv, fun _ _ hv => hv⟩

theorem alloc_local_value_arena (s : Scope) (n : String) (v : LuaValue) :
    (s.alloc_local n v).1.value_arena = s.value_arena ++ [v] := rfl

theorem alloc_local_var_arena (s : Scope) (n : String) (v : LuaValue) :
    (s.alloc_local n v).1.var_arena = s.var_arena ++ [Var.Local s.value_arena.length] := rfl

theorem arenasPreserved_set_alloc (m : ScopeManager) (id : Nat) (s : Scope)
    (hid : m.scopes[id]? = some s) (n : String) (v : LuaValue) :
    arenasPreserved m (m.setScope id (s.alloc_local n v).1) := by
  intro sid scope hs
  by_cases heq : id = sid
  · subst heq
    have hlt : id < m.scopes.length := by
      by_contra hk
      rw [List.getElem?_eq_none_iff.mpr (by omega)] at hid
      cases hid
    refine ⟨(s.alloc_local n v).1, ?_, ?_, ?_⟩
    · show (m.scopes.set id _)[id]? = _
      rw [List.getElem?_set_eq_of_lt _ hlt]
    · rw [hid] at hs
      injection hs with hs
      subst hs
      intro k w hv
      rw [alloc_local_value_arena]
      exact getElem?_append_of_some hv
    · rw [hid] at hs
      injection hs with hs
      subst hs
      intro k w hv
      rw [alloc_local_var_arena]
      exact getElem?_append_of_some hv
  · refine ⟨scope, ?_, fun _ _ hv => hv, fun _ _ hv => hv⟩
    show (m.scopes.set id _)[sid]? = _
    rw [List.getElem?_set_ne heq]
    exact hs

theorem arenasPreserved_name_next (m : ScopeManager) (n : String) :
    arenasPreserved m (m.name_next_scope n) :=
  arenasPreserved_of_eq rfl

theorem arenasPreserved_assign_pair (gid : Nat) (m : ScopeManager)
    (ve : LuaVar × LuaExpression) : arenasPreserved m (assign_pair gid m ve) := by
  unfold assign_pair
  split
  · rename_i n val
    cases hid : m.scopes[gid]? with
    | none => simp only [hid]; exact arenasPreserved_refl m
    | some s =>
      simp only [hid]
      exact arenasPreserved_trans (arenasPreserved_set_alloc m gid s hid _ _)
        (arenasPreserved_name_next _ _)
  · exact arenasPreserved_refl m

theorem arenasPreserved_assign_fold (gid : Nat) (l : List (LuaVar × LuaExpression))
    (m : ScopeManager) : arenasPreserved m (l.foldl (assign_pair gid) m) := by
  induction l generalizing m with
  | nil => exact arenasPreserved_refl m
  | cons ve rest ih =>
    rw [List.foldl_cons]
    exact arenasPreserved_trans (arenasPreserved_assign_pair gid m ve) (ih _)

theorem arenasPreserved_local_assign_pair (m : ScopeManager)
    (ne : String × LuaExpression) : arenasPreserved m (local_assign_pair m ne) := by
  unfold local_assign_pair
  split
  · cases hh : m.stack.head? with
    | none => simp only [hh]; exact arenasPreserved_refl m
    | some id =>
      simp only [hh]
      cases hid : m.scopes[id]? with
      | none => simp only [hid]; exact arenasPreserved_refl m
      | some s =>
        simp only [hid]
        exact arenasPreserved_trans (arenasPreserved_set_alloc m id s hid _ _)
          (arenasPreserved_name_next _ _)
  · exact arenasPreserved_refl m

theorem arenasPreserved_local_assign_fold (l : List (String × LuaExpression))
    (m : ScopeManager) : arenasPreserved m (l.foldl local_assign_pair m) := by
  induction l generalizing m with
  | nil => exact arenasPreserved_refl m
  | cons ne rest ih =>
    rw [List.foldl_cons]
    exact arenasPreserved_trans (arenasPreserved_local_assign_pair m ne) (ih _)

theorem visit_function_call_scopes (m : ScopeManager) (c : FunctionCall)
    (m' : ScopeManager) (h : visit_function_call m c = some m') :
    m'.scopes = m.scopes := by
  unfold visit_function_call at h
  split at h
  · cases h
  · injection h with h
    subst h
    rfl
  · split at h <;> (injection h with h; subst h; rfl)

theorem step_arenasPreserved (m : ScopeManager) (e : VisitEvent) (m' : ScopeManager)
    (ops : List StackOp) (h : step m e = some (m', ops)) : arenasPreserved m m' := by
  cases e with
  | block b =>
    injection h with h
    rw [show m' = (m.open_scope).1 from congrArg Prod.fst h.symm]
    exact arenasPreserved_open_scope m
  | blockEnd =>
    injection h with h
    rw [show m' = m.close_scope from congrArg Prod.fst h.symm]
    exact arenasPreserved_of_eq rfl
  | localFunction name body =>
    injection h with h
    rw [show m' = visit_local_function m name body from congrArg Prod.fst h.symm]
    unfold visit_local_function
    cases hh : m.stack.head? with
    | none => exact arenasPreserved_refl m
    | some id =>
      simp only
      cases hid : m.scopes[id]? with
      | none => exact arenasPreserved_refl m
      | some s =>
        simp only
        exact arenasPreserved_trans (arenasPreserved_set_alloc m id s hid _ _)
          (arenasPreserved_name_next _ _)
  | functionDeclaration name body =>
    injection h with h
    rw [show m' = (visit_function_declaration m name body).1 from congrArg Prod.fst h.symm]
    unfold visit_function_declaration
    cases hg : m.stack.getLast? with
    | none => exact arenasPreserved_refl m
    | some gid =>
      simp only
      cases hid : m.scopes[gid]? with
      | none => exact arenasPreserved_refl m
      | some s =>
        simp only
        have h1 := arenasPreserved_set_alloc m gid s hid (strTrim name) (LuaValue.function body)
        exact arenasPreserved_trans h1 (arenasPreserved_of_eq rfl)
  | functionDeclarationEnd =>
    injection h with h
    rw [show m' = { m with stack := m.stack.tail } from congrArg Prod.fst h.symm]
    exact arenasPreserved_of_eq rfl
  | assignment vars exprs =>
    injection h with h
    rw [show m' = (visit_assignment m vars exprs).1 from congrArg Prod.fst h.symm]
    unfold visit_assignment
    cases hg : m.stack.getLast? with
    | none => exact arenasPreserved_refl m
    | some gid =>
      simp only
      have h1 : arenasPreserved m { m with stack := gid :: m.stack } :=
        arenasPreserved_of_eq rfl
      exact arenasPreserved_trans h1 (arenasPreserved_assign_fold gid _ _)
  | assignmentEnd =>
    injection h with h
    rw [show m' = m.close_scope from congrArg Prod.fst h.symm]
    exact arenasPreserved_of_eq rfl
  | localAssignment names exprs =>
    injection h with h
    rw [show m' = visit_local_assignment m names exprs from congrArg Prod.fst h.symm]
    unfold visit_local_assignment
    exact arenasPreserved_local_assign_fold _ m
  | localAssignmentEnd =>
    injection h with h
    rw [show m' = m from congrArg Prod.fst h.symm]
    exact arenasPreserved_refl m
  | functionCall c =>
    simp only [step] at h
    cases hv : visit_function_call m c with
    | none => rw [hv] at h; cases h
    | some m₂ =>
      rw [hv] at h
      injection h with h
      rw [show m' = m₂ from congrArg Prod.fst h.symm]
      exact arenasPreserved_of_eq (visit_function_call_scopes m c m₂ hv)

/-! ### Only `Local` vars are ever stored -/

theorem allLocal_of_eq {m m' : ScopeManager} (h : m'.scopes = m.scopes)
    (hall : allLocal m = true) : allLocal m' = true := by
  unfold allLocal at *
  rw [h]
  exact hall

theorem allLocal_append_empty (m : ScopeManager) (s : Scope) (hs : s.var_arena = [])
    (hall : allLocal m = true) :
    allLocal { m with scopes := m.scopes ++ [s] } = true := by
  unfold allLocal at *
  show (m.scopes ++ [s]).all _ = true
  rw [List.all_append, Bool.and_eq_true]
  refine ⟨hall, ?_⟩
  simp [hs]

theorem allLocal_open_scope (m : ScopeManager) (hall : allLocal m = true) :
    allLocal (m.open_scope).1 = true := by
  unfold ScopeManager.open_scope
  cases m.name_stack with
  | nil => exact allLocal_append_empty m _ rfl hall
  | cons n rest => exact allLocal_append_empty m _ rfl hall

theorem allLocal_set_alloc (m : ScopeManager) (id : Nat) (s : Scope)
    (hid : m.scopes[id]? = some s) (n : String) (v : LuaValue)
    (hall : allLocal m = true) :
    allLocal (m.setScope id (s.alloc_local n v).1) = true := by
  unfold allLocal at *
  rw [List.all_eq_true] at hall ⊢
  intro sc hsc
  rcases List.mem_or_eq_of_mem_set hsc with hmem | heq
  · exact hall sc hmem
  · subst heq
    rw [alloc_local_var_arena, List.all_append, Bool.and_eq_true]
    exact ⟨hall s (List.getElem?_mem hid), by simp [isLocalVar]⟩

theorem allLocal_assign_pair (gid : Nat) (m : ScopeManager) (ve : LuaVar × LuaExpression)
    (hall : allLocal m = true) : allLocal (assign_pair gid m ve) = true := by
  unfold assign_pair
  split
  · cases hid : m.scopes[gid]? with
    | none => simp only [hid]; exact hall
    | some s =>
      simp only [hid]
      exact allLocal_of_eq rfl (allLocal_set_alloc m gid s hid _ _ hall)
  · exact hall

theorem allLocal_assign_fold (gid : Nat) (l : List (LuaVar × LuaExpression))
    (m : ScopeManager) (hall : allLocal m = true) :
    allLocal (l.foldl (assign_pair gid) m) = true := by
  induction l generalizing m with
  | nil => exact hall
  | cons ve rest ih =>
    rw [List.foldl_cons]
    exact ih _ (allLocal_assign_pair gid m ve hall)

theorem allLocal_local_assign_pair (m : ScopeManager) (ne : String × LuaExpression)
    (hall : allLocal m = true) : allLocal (local_assign_pair m ne) = true := by
  unfold local_assign_pair
  split
  · cases hh : m.stack.head? with
    | none => simp only [hh]; exact hall
    | some id =>
      simp only [hh]
      cases hid : m.scopes[id]? with
      | none => simp only [hid]; exact hall
      | some s =>
        simp only [hid]
        exact allLocal_of_eq rfl (allLocal_set_alloc m id s hid _ _ hall)
  · exact hall

theorem allLocal_local_assign_fold (l : List (String × LuaExpression))
    (m : ScopeManager) (hall : allLocal m = true) :
    allLocal (l.foldl local_assign_pair m) = true := by
  induction l generalizing m with
  | nil => exact hall
  | cons ne rest ih =>
    rw [List.foldl_cons]
    exact ih _ (allLocal_local_assign_pair m ne hall)

theorem step_allLocal (m : ScopeManager) (e : VisitEvent) (m' : ScopeManager)
    (ops : List StackOp) (h : step m e = some (m', ops))
    (hall : allLocal m = true) : allLocal m' = true := by
  cases e with
  | block b =>
    injection h with h
    rw [show m' = (m.open_scope).1 from congrArg Prod.fst h.symm]
    exact allLocal_open_scope m hall
  | blockEnd =>
    injection h with h
    rw [show m' = m.close_scope from congrArg Prod.fst h.symm]
    exact allLocal_of_eq rfl hall
  | localFunction name body =>
    injection h with h
    rw [show m' = visit_local_function m name body from congrArg Prod.fst h.symm]
    unfold visit_local_function
    cases hh : m.stack.head? with
    | none => exact hall
    | some id =>
      simp only
      cases hid : m.scopes[id]? with
      | none => exact hall
      | some s =>
        simp only
        exact allLocal_of_eq rfl (allLocal_set_alloc m id s hid _ _ hall)
  | functionDeclaration name body =>
    injection h with h
    rw [show m' = (visit_function_declaration m name body).1 from congrArg Prod.fst h.symm]
    unfold visit_function_declaration
    cases hg : m.stack.getLast? with
    | none => exact hall
    | some gid =>
      simp only
      cases hid : m.scopes[gid]? with
      | none => exact hall
      | some s =>
        simp only
        exact allLocal_of_eq rfl (allLocal_set_alloc m gid s hid _ _ hall)
  | functionDeclarationEnd =>
    injection h with h
    rw [show m' = { m with stack := m.stack.tail } from congrArg Prod.fst h.symm]
    exact allLocal_of_eq rfl hall
  | assignment vars exprs =>
    injection h with h
    rw [show m' = (visit_assignment m vars exprs).1 from congrArg Prod.fst h.symm]
    unfold visit_assignment
    cases hg : m.stack.getLast? with
    | none => exact hall
    | some gid =>
      simp only
      exact allLocal_assign_fold gid _ _ hall
  | assignmentEnd =>
    injection h with h
    rw [show m' = m.close_scope from congrArg Prod.fst h.symm]
    exact allLocal_of_eq rfl hall
  | localAssignment names exprs =>
    injection h with h
    rw [show m' = visit_local_assignment m names exprs from congrArg Prod.fst h.symm]
    exact allLocal_local_assign_fold _ m hall
  | localAssignmentEnd =>
    injection h with h
    rw [show m' = m from congrArg Prod.fst h.symm]
    exact hall
  | functionCall c =>
    simp only [step] at h
    cases hv : visit_function_call m c with
    | none => rw [hv] at h; cases h
    | some m₂ =>
      rw [hv] at h
      injection h with h
      rw [show m' = m₂ from congrArg Prod.fst h.symm]
      exact allLocal_of_eq (visit_function_call_scopes m c m₂ hv) hall

theorem runEvents_allLocal (evs : List VisitEvent) (m : ScopeManager)
    (m' : ScopeManager) (ops : List StackOp) (h : runEvents m evs = some (m', ops))
    (hall : allLocal m = true) : allLocal m' = true := by
  induction evs generalizing m ops with
  | nil =>
    rw [runEvents_nil] at h
    injection h with h
    rw [show m' = m from congrArg Prod.fst h.symm]
    exact hall
  | cons e rest ih =>
    rw [runEvents_cons] at h
    cases hs : step m e with
    | none => rw [hs] at h; cases h
    | some p =>
      rw [hs, Option.some_bind] at h
      cases hr : runEvents p.1 rest with
      | none => rw [hr] at h; cases h
      | some q =>
        rw [hr] at h
        injection h with h
        have h1 := step_allLocal m e p.1 p.2 (by rw [hs]) hall
        obtain rfl : m' = q.1 := congrArg Prod.fst h.symm
        exact ih p.1 q.2 hr h1

theorem allLocal_lookup (m : ScopeManager) (hall : allLocal m = true)
    {sid : Nat} {s : Scope} (hs : m.scopes[sid]? = some s)
    {k : Nat} {v : Var} (hv : s.var_arena[k]? = some v) :
    ∃ val : Nat, v = Var.Local val := by
  unfold allLocal at hall
  rw [List.all_eq_true] at hall
  have h1 := hall s (List.getElem?_mem hs)
  rw [List.all_eq_true] at h1
  have h2 := h1 v (List.getElem?_mem hv)
  cases v with
  | Local val => exact ⟨val, rfl⟩
  | Reference a b => simp [isLocalVar] at h2

theorem resolve_reference_local (m : ScopeManager) {sid : Nat} {s : Scope}
    (hs : m.scopes[sid]? = some s) {k : Nat} {val : Nat}
    (hv : s.var_arena[k]? = some (Var.Local val)) :
    ∀ fuel, resolve_reference_fuel m (fuel + 1) sid k = some (some (sid, val)) := by
  intro fuel
  rw [resolve_reference_fuel]
  simp only [ScopeManager.get_scope, hs, Option.some_bind, hv]

/-! ### Remaining helper lemmas for the hint generator -/

theorem zip_map_getElem? {α β γ : Type} (f : α → β → γ) :
    ∀ (l₁ : List α) (l₂ : List β) (i : Nat) (a : α) (b : β),
      l₁[i]? = some a → l₂[i]? = some b →
      ((l₁.zip l₂).map fun p => f p.1 p.2)[i]? = some (f a b) := by
  intro l₁
  induction l₁ with
  | nil => intro l₂ i a b h; simp at h
  | cons x xs ih =>
    intro l₂ i a b h1 h2
    cases l₂ with
    | nil => simp at h2
    | cons y ys =>
      cases i with
      | zero =>
        simp only [List.getElem?_cons_zero] at h1 h2
        injection h1 with h1
        injection h2 with h2
        subst h1
        subst h2
        simp [List.zip_cons_cons]
      | succ n =>
        simp only [List.getElem?_cons_succ] at h1 h2
        simpa [List.zip_cons_cons] using ih ys n a b h1 h2

theorem assign_fold_skips_other (gid : Nat) :
    ∀ (l : List (LuaVar × LuaExpression)) (m : ScopeManager),
      (∀ ve ∈ l, ve.1 = LuaVar.other) → l.foldl (assign_pair gid) m = m := by
  intro l
  induction l with
  | nil => intro m _; rfl
  | cons ve rest ih =>
    intro m hother
    rw [List.foldl_cons]
    have h1 : ve.1 = LuaVar.other := hother ve (List.mem_cons_self ve rest)
    have h2 : assign_pair gid m ve = m := by
      obtain ⟨v1, v2⟩ := ve
      simp only at h1
      subst h1
      rfl
    rw [h2]
    exact ih m fun ve' hve' => hother ve' (List.mem_cons_of_mem ve hve')

theorem lookupName_insertName_self :
    ∀ (tbl : List (String × Nat)) (n : String) (id : Nat),
      lookupName (insertName tbl n id) n = some id := by
  intro tbl
  induction tbl with
  | nil => intro n id; simp [insertName, lookupName]
  | cons p rest ih =>
    intro n id
    by_cases h : p.1 = n
    · simp [insertName, h, lookupName]
    · simp [insertName, h, lookupName, ih n id]

theorem lookupName_insertName_ne :
    ∀ (tbl : List (String × Nat)) (n : String) (id : Nat) (n' : String), n' ≠ n →
      lookupName (insertName tbl n id) n' = lookupName tbl n' := by
  intro tbl
  induction tbl with
  | nil =>
    intro n id n' hne
    simp [insertName, lookupName]
    intro h
    exact absurd h.symm hne
  | cons p rest ih =>
    intro n id n' hne
    have hnn : ¬n = n' := fun hh => hne hh.symm
    by_cases h : p.1 = n
    · have h2 : ¬p.1 = n' := by rw [h]; exact hnn
      simp [insertName, h, lookupName, hnn, h2]
    · by_cases h2 : p.1 = n'
      · simp [insertName, h, lookupName, h2, hne]
      · simp [insertName, h, lookupName, h2, hne, ih n id n' hne]

/-! ### Claim theorems -/

/-- Claim C1: for a call whose callee resolves to a function with parameter
pairs `P` and whose first suffix is a parenthesized argument list `A`,
`visit_function_call` appends exactly `min |A| |P|` hints, the `i`-th
placed at argument `a_i`'s start position and labelled with parameter
`p_i`'s extracted name; unmatched tails produce no hint and no failure. -/
theorem hint_pairing (m : ScopeManager) (node : FunctionCall)
    (P : List (String × Pos)) (args : List PExpr) (rest : List Suffix)
    (hp : call_params m node = some (some P))
    (hsfx : node.suffixes =
      Suffix.call (CallSfx.anonymousCall (FunctionArgs.parentheses args)) :: rest) :
    ∃ hs : List InlayHint,
      visit_function_call m node = some { m with hints := m.hints ++ hs } ∧
      hs.length = min args.length P.length ∧
      ∀ (i : Nat) (a : PExpr) (p : String × Pos), args[i]? = some a → P[i]? = some p →
        hs[i]? = some { line := (a.start.getD default).line % 2 ^ 32,
                        character := (a.start.getD default).character % 2 ^ 32,
                        label := p.1,
                        kind := 2 } := by
  refine ⟨(args.zip P).map fun ap => mkHint ap.1 ap.2, ?_, ?_, ?_⟩
  · unfold visit_function_call
    rw [hp, hsfx]
    rfl
  · rw [List.length_map, List.length_zip]
  · intro i a p ha hpp
    exact zip_map_getElem? mkHint args P i a p ha hpp

/-- Witness for C1 at `add(1, 2)`: the hypotheses hold by evaluation and
the conclusion follows by the theorem. -/
theorem hint_pairing_witness :
    call_params addManager addCall = some (some addParams) ∧
    addCall.suffixes =
      Suffix.call (CallSfx.anonymousCall (FunctionArgs.parentheses addArgs)) :: [] ∧
    ∃ hs : List InlayHint,
      visit_function_call addManager addCall =
        some { addManager with hints := addManager.hints ++ hs } ∧
      hs.length = min addArgs.length addParams.length ∧
      ∀ (i : Nat) (a : PExpr) (p : String × Pos),
        addArgs[i]? = some a → addParams[i]? = some p →
        hs[i]? = some { line := (a.start.getD default).line % 2 ^ 32,
                        character := (a.start.getD default).character % 2 ^ 32,
                        label := p.1,
                        kind := 2 } :=
  ⟨rfl, rfl, hint_pairing addManager addCall addParams addArgs [] rfl rfl⟩

/-- Witness for C2: a two-scope state whose inner scope must leave itself
to resolve `add`; the hypothesis holds by evaluation and the resolver
agrees with the specification, synthesizing `Reference(0, 0)`. -/
theorem find_var_eq_spec_witness :
    parents_ok childManager = true ∧
    find_var childManager "add" = find_var_spec childManager "add" ∧
    find_var childManager "add" = some (Var.Reference 0 0) :=
  ⟨rfl, find_var_eq_spec childManager rfl "add", rfl⟩

/-- Claim C3 counterexample: on the state whose var `0` of scope `0` aliases
itself, the `resolve_reference` recursion exhausts every fuel bound: the
Rust recursion (which has no defensive bound) never returns, so a cyclic
alias chain is not treated as an unresolved lookup — the function simply
does not terminate on it. -/
theorem resolve_reference_cycle_diverges : resolveDiverges cycManager 0 0 := by
  intro fuel
  induction fuel with
  | zero => rfl
  | succ n ih => exact ih

/-- Claim C3 (amended): `resolve_reference` follows `Reference` links until a
`Local` and terminates — with a fuel-independent result — on every state
whose arenas store only `Local` vars, which covers every state the
builder constructs; its recursion carries no defensive cycle bound, and
on a cyclic alias chain it diverges instead of reporting an unresolved
lookup. -/
theorem resolve_reference_terminates_on_local_states :
    ∀ (m : ScopeManager), allLocal m = true → ∀ (scope var : Nat),
      ∃ r : Option (Nat × Nat), resolve_reference m scope var = r ∧
        ∀ fuel : Nat, resolve_reference_fuel m (fuel + 1) scope var = some r := by
  intro m hall scope var
  cases hsc : m.scopes[scope]? with
  | none =>
    have hfuel : ∀ fuel, resolve_reference_fuel m (fuel + 1) scope var = some none := by
      intro fuel
      rw [resolve_reference_fuel]
      have hb : (m.get_scope scope).bind (fun s => s.var_arena[var]?) = none := by
        simp [ScopeManager.get_scope, hsc]
      rw [hb]
    refine ⟨none, ?_, hfuel⟩
    unfold resolve_reference
    rw [hfuel (totalVars m)]
    rfl
  | some s =>
    cases hv : s.var_arena[var]? with
    | none =>
      have hfuel : ∀ fuel, resolve_reference_fuel m (fuel + 1) scope var = some none := by
        intro fuel
        rw [resolve_reference_fuel]
        have hb : (m.get_scope scope).bind (fun sc => sc.var_arena[var]?) = none := by
          simp [ScopeManager.get_scope, hsc, hv]
        rw [hb]
      refine ⟨none, ?_, hfuel⟩
      unfold resolve_reference
      rw [hfuel (totalVars m)]
      rfl
    | some v =>
      obtain ⟨val, rfl⟩ := allLocal_lookup m hall hsc hv
      refine ⟨some (scope, val), ?_, resolve_reference_local m hsc hv⟩
      unfold resolve_reference
      rw [resolve_reference_local m hsc hv (totalVars m)]
      rfl

/-- Witness for the amended C3: on `addManager` (all stored vars are
`Local`), resolution of `(0, 0)` terminates with the stored value. -/
theorem resolve_reference_terminates_witness :
    allLocal addManager = true ∧
    (∃ r : Option (Nat × Nat), resolve_reference addManager 0 0 = r ∧
      ∀ fuel : Nat, resolve_reference_fuel addManager (fuel + 1) 0 0 = some r) ∧
    resolve_reference addManager 0 0 = some (0, 0) :=
  ⟨rfl, resolve_reference_terminates_on_local_states addManager rfl 0 0, rfl⟩

/-- Claim C4 evidence: evaluating the assignment handler on the multi-target
bare assignment `x, y = function(a) end, function(b) end` from the
initial state.  Because `visit_assignment` reverses the target list
before zipping it with the expression list, `x` ends up bound to the
SECOND function (declared parameter `b`) and `y` to the FIRST (declared
parameter `a`) — not to their corresponding right-hand sides. -/
theorem assignment_pairs_reversed :
    (step initManager crossAssignEvent).map
      (fun p => (rootFunctionParams p.1 "x", rootFunctionParams p.1 "y")) =
    some (some ["b"], some ["a"]) := rfl

/-- Claim C5: every full builder traversal performs exactly as many scope-stack
pushes as pops, never panics, and ends with the stack holding only the
root scope. -/
theorem scope_stack_balance (ast : Block) :
    ∃ (m' : ScopeManager) (ops : List StackOp), ScopeManager.new ast = some (m', ops) ∧
      ops.count StackOp.push = ops.count StackOp.pop ∧ m'.stack = [0] := by
  obtain ⟨m', ops, h1, h2, h3⟩ := scopeManager_new_balanced ast
  exact ⟨m', ops, h1, h3, h2⟩

/-- Claim C6 counterexample: the call `(add)(1)` has a non-`Name` call head
(a parenthesized expression), yet the pass emits one hint for it — so
"any non-name call prefix produces zero hints" fails as stated. -/
theorem paren_callee_produces_hint :
    (visit_function_call addManager parenCall).map (fun m' => m'.hints.length) =
      some 1 := rfl

/-- Claim C6 (amended): call and assignment shapes the pass does not recognize
are silently skipped — zero hints, no error, the pass continues: any
method call (whatever its head and regardless of resolvability), a
parenthesized callee that `extract_params` cannot resolve, any other
call-head shape, and any non-name assignment target.  (A parenthesized
bare-name callee that resolves to a function IS recognized and produces
hints — see the counterexample.) -/
theorem unsupported_shapes_skipped :
    ∀ (m : ScopeManager), m.stack ≠ [] →
      (∀ (pfx : Pfx) (mn : String) (margs : FunctionArgs) (rest : List Suffix),
        visit_function_call m
          (FunctionCall.mk pfx (Suffix.call (CallSfx.methodCall mn margs) :: rest)) =
          some m) ∧
      (∀ (e : LuaExpression) (sfx : List Suffix), extract_params m e = none →
        visit_function_call m (FunctionCall.mk (Pfx.expression e) sfx) = some m) ∧
      (∀ (sfx : List Suffix),
        visit_function_call m (FunctionCall.mk Pfx.other sfx) = some m) ∧
      (∀ (vars : List LuaVar) (exprs : List LuaExpression),
        (∀ v ∈ vars, v = LuaVar.other) →
        (visit_assignment m vars exprs).1.scopes = m.scopes) := by
  intro m hstack
  refine ⟨?_, ?_, ?_, ?_⟩
  · intro pfx mn margs rest
    unfold visit_function_call
    cases hcp : call_params m
        (FunctionCall.mk pfx (Suffix.call (CallSfx.methodCall mn margs) :: rest)) with
    | none => exact absurd hcp (call_params_ne_none m _ hstack)
    | some o =>
      cases o with
      | none => rfl
      | some params => rfl
  · intro e sfx hext
    unfold visit_function_call call_params
    simp [FunctionCall.pfx, hext]
  · intro sfx
    unfold visit_function_call call_params
    simp [FunctionCall.pfx]
  · intro vars exprs hother
    unfold visit_assignment
    cases hg : m.stack.getLast? with
    | none => rfl
    | some gid =>
      simp only
      rw [assign_fold_skips_other gid (vars.reverse.zip exprs)
        { m with stack := gid :: m.stack } ?ho]
      case ho =>
        intro ve hve
        obtain ⟨v1, v2⟩ := ve
        have hmem := List.of_mem_zip hve
        exact hother v1 (List.mem_reverse.mp hmem.1)

/-- Witness for the amended C6 at a method call on a resolvable name. -/
theorem unsupported_shapes_skipped_witness :
    addManager.stack ≠ [] ∧
    visit_function_call addManager methodCallNode = some addManager :=
  ⟨by decide,
    (unsupported_shapes_skipped addManager (by decide)).1 (Pfx.name "add") "foo"
      (FunctionArgs.parentheses [PExpr.mk LuaExpression.other (some ⟨4, 9⟩)]) []⟩

/-- Claim C7: the hint request never panics; it surfaces a failure to the host
exactly when the document is present and its text fails to parse; in
every other case the host sees a success carrying either no analysis
(`none`, unknown document) or the pass's hint list. -/
theorem inlay_hint_failure_boundary :
    ∀ (parse : String → Option Block) (docs : List (String × Doc)) (uri : String),
      ∃ r, inlay_hint parse docs uri = some r ∧
        (r = Except.error () ↔
          ∃ doc, lookupDoc docs uri = some doc ∧ parse doc.text = none) := by
  intro parse docs uri
  cases hd : lookupDoc docs uri with
  | none =>
    have hi : inlay_hint parse docs uri = some (Except.ok none) := by
      unfold inlay_hint
      simp only [hd]
    refine ⟨Except.ok none, hi, ?_, ?_⟩
    · intro h
      exact Except.noConfusion h
    · rintro ⟨doc, hdoc, _⟩
      cases hdoc
  | some doc =>
    cases hp : parse doc.text with
    | none =>
      have hi : inlay_hint parse docs uri = some (Except.error ()) := by
        unfold inlay_hint
        simp only [hd, hp]
      exact ⟨Except.error (), hi, fun _ => ⟨doc, rfl, hp⟩, fun _ => rfl⟩
    | some ast =>
      obtain ⟨m', ops, hr, _, _⟩ := scopeManager_new_balanced ast
      have hi : inlay_hint parse docs uri = some (Except.ok (some m'.hints)) := by
        unfold inlay_hint
        simp only [hd, hp, hr, Option.map_some']
      refine ⟨Except.ok (some m'.hints), hi, ?_, ?_⟩
      · intro h
        exact Except.noConfusion h
      · rintro ⟨doc', hdoc', hp'⟩
        injection hdoc' with hdoc'
        rw [← hdoc', hp] at hp'
        cases hp'

/-- Claim C8: no operation of the pass ever deletes a `Value` or `Var` from any
scope's arenas — every stored entry survives every visitor step at its
id, so a `Reference` can never outlive its target — and re-declaring a
name overwrites only its name-table entry (latest binding wins) while
leaving every other name's entry, and all arena entries, intact. -/
theorem arena_append_only :
    (∀ (m : ScopeManager) (e : VisitEvent) (m' : ScopeManager) (ops : List StackOp),
      step m e = some (m', ops) → arenasPreserved m m') ∧
    (∀ (tbl : List (String × Nat)) (n : String) (id : Nat),
      lookupName (insertName tbl n id) n = some id ∧
      ∀ n' : String, n' ≠ n → lookupName (insertName tbl n id) n' = lookupName tbl n') :=
  ⟨step_arenasPreserved, fun tbl n id =>
    ⟨lookupName_insertName_self tbl n id,
     fun n' h => lookupName_insertName_ne tbl n id n' h⟩⟩

/-- Witness for C8: the step recording `local function f` preserves every
arena entry of `addManager`; re-inserting `add` overwrites its table
entry. -/
theorem arena_append_only_witness :
    step addManager (VisitEvent.localFunction "f" addBody) =
      some (visit_local_function addManager "f" addBody, []) ∧
    arenasPreserved addManager (visit_local_function addManager "f" addBody) ∧
    lookupName (insertName [("add", 0)] "add" 5) "add" = some 5 :=
  ⟨rfl, arena_append_only.1 addManager (VisitEvent.localFunction "f" addBody)
      (visit_local_function addManager "f" addBody) [] rfl,
    (arena_append_only.2 [("add", 0)] "add" 5).1⟩

/-- Claim C9: in every state the builder's traversal reaches from the initial
one, every var stored in any scope's arena is a `Var.Local` (the handlers
only allocate through `alloc_local`; `alloc_reference` is never invoked),
so `resolve_reference` applied to any arena-stored var returns in one
step — following no `Reference` link at all — with the var's own value. -/
theorem reachable_vars_all_local :
    ∀ (evs : List VisitEvent) (m' : ScopeManager) (ops : List StackOp),
      runEvents initManager evs = some (m', ops) →
      allLocal m' = true ∧
      ∀ (sid : Nat) (s : Scope), m'.scopes[sid]? = some s →
        ∀ (vid : Nat) (v : Var), s.var_arena[vid]? = some v →
          ∃ val : Nat, v = Var.Local val ∧
            resolve_reference m' sid vid = some (sid, val) ∧
            resolve_reference_fuel m' 1 sid vid = some (some (sid, val)) := by
  intro evs m' ops h
  have hall : allLocal m' = true := runEvents_allLocal evs initManager m' ops h rfl
  refine ⟨hall, ?_⟩
  intro sid s hs vid v hv
  obtain ⟨val, rfl⟩ := allLocal_lookup m' hall hs hv
  refine ⟨val, rfl, ?_, resolve_reference_local m' hs hv 0⟩
  unfold resolve_reference
  rw [resolve_reference_local m' hs hv (totalVars m')]
  rfl

/-- Witness for C9 after one `local function f` step. -/
theorem reachable_vars_all_local_witness :
    runEvents initManager [VisitEvent.localFunction "f" addBody] =
      some (localFnManager, []) ∧
    (allLocal localFnManager = true ∧
      ∀ (sid : Nat) (s : Scope), localFnManager.scopes[sid]? = some s →
        ∀ (vid : Nat) (v : Var), s.var_arena[vid]? = some v →
          ∃ val : Nat, v = Var.Local val ∧
            resolve_reference localFnManager sid vid = some (sid, val) ∧
            resolve_reference_fuel localFnManager 1 sid vid = some (some (sid, val))) :=
  ⟨rfl, reachable_vars_all_local [VisitEvent.localFunction "f" addBody]
    localFnManager [] rfl⟩

/-- Claim C10: hints are gated on the FIRST suffix being an anonymous call with
a parenthesized argument list: the result of `visit_function_call` does
not depend on later suffixes (only the first argument list can receive
hints), any other first-suffix shape (bare string argument, table
constructor, method call, index) yields the state unchanged — zero hints
— whatever the callee resolves to, and a call with no suffix yields no
hints either. -/
theorem first_suffix_gates_hints :
    ∀ (m : ScopeManager) (pfx : Pfx) (s : Suffix) (rest : List Suffix), m.stack ≠ [] →
      visit_function_call m (FunctionCall.mk pfx (s :: rest)) =
        visit_function_call m (FunctionCall.mk pfx [s]) ∧
      (isAnonParenSfx s = false →
        visit_function_call m (FunctionCall.mk pfx (s :: rest)) = some m) ∧
      visit_function_call m (FunctionCall.mk pfx []) = some m := by
  intro m pfx s rest hstack
  refine ⟨?_, ?_, ?_⟩
  · unfold visit_function_call
    cases hc : call_params m (FunctionCall.mk pfx (s :: rest)) with
    | none =>
      rw [show call_params m (FunctionCall.mk pfx [s]) = none from hc]
    | some o =>
      rw [show call_params m (FunctionCall.mk pfx [s]) = some o from hc]
      cases o with
      | none => rfl
      | some params => rfl
  · intro hanon
    unfold visit_function_call
    cases hc : call_params m (FunctionCall.mk pfx (s :: rest)) with
    | none => exact absurd hc (call_params_ne_none m _ hstack)
    | some o =>
      cases o with
      | none => rfl
      | some params =>
        cases s with
        | index => rfl
        | call c =>
          cases c with
          | methodCall mn margs => rfl
          | anonymousCall args =>
            cases args with
            | parentheses ps => simp [isAnonParenSfx] at hanon
            | stringArg str => rfl
            | tableConstructor => rfl
  · unfold visit_function_call
    cases hc : call_params m (FunctionCall.mk pfx []) with
    | none => exact absurd hc (call_params_ne_none m _ hstack)
    | some o =>
      cases o with
      | none => rfl
      | some params => rfl

/-- Witness for C10: `add "s"` (bare-string argument) at a state where
`add` resolves to a function. -/
theorem first_suffix_gates_hints_witness :
    addManager.stack ≠ [] ∧
    (visit_function_call addManager (FunctionCall.mk (Pfx.name "add")
        (Suffix.call (CallSfx.anonymousCall (FunctionArgs.stringArg "s")) :: [])) =
      visit_function_call addManager (FunctionCall.mk (Pfx.name "add")
        [Suffix.call (CallSfx.anonymousCall (FunctionArgs.stringArg "s"))]) ∧
     (isAnonParenSfx (Suffix.call (CallSfx.anonymousCall (FunctionArgs.stringArg "s"))) =
        false →
       visit_function_call addManager (FunctionCall.mk (Pfx.name "add")
        (Suffix.call (CallSfx.anonymousCall (FunctionArgs.stringArg "s")) :: [])) =
        some addManager) ∧
     visit_function_call addManager (FunctionCall.mk (Pfx.name "add") []) =
       some addManager) :=
  ⟨by decide, first_suffix_gates_hints addManager (Pfx.name "add")
    (Suffix.call (CallSfx.anonymousCall (FunctionArgs.stringArg "s"))) [] (by decide)⟩

end Luahint
